import Mathlib

/-!
Shallow embedding of the FileZen scan / classify / organize / undo engine.

Sources embedded here:
- the App component (src/unnamed/part_001): applyCustomRules, the duplicate
  grouping inside startScan, resolveDuplicates, keepOne, getSubDirHandle,
  handleOrganize, handleUndo;
- the classifier service (src/src/geminiService.ts): categorizeFiles and
  fallbackCategorization;
- the data model (src/unnamed/part_002): FileCategory, FileMetadata,
  DuplicateGroup, UndoRecord, CustomRule.

The observable filesystem is modelled as an association list from
slash-separated relative paths to whole file contents; directory handles
matter only through the path strings they produce, so directories are kept
implicit. JavaScript strings are modelled by Lean strings, with the string
primitives used by the code (split, toLowerCase, includes, replace of a
single-character pattern) re-implemented structurally over the character
list so that every definition evaluates.
-/

namespace FileZen

/-- File categories, after the FileCategory enum of types (src/unnamed/part_002).
Constructor names follow the enum value strings. -/
inductive FileCategory where
  | Documents
  | Images
  | Videos
  | Archives
  | Installers
  | Code
  | Audio
  | Unknown
  | Junk
deriving DecidableEq, Repr

/-- String value of each FileCategory enum member. -/
def catName : FileCategory → String
  | .Documents => "Documents"
  | .Images => "Images"
  | .Videos => "Videos"
  | .Archives => "Archives"
  | .Installers => "Installers"
  | .Code => "Code"
  | .Audio => "Audio"
  | .Unknown => "Unknown"
  | .Junk => "Junk"

/-- JS String.prototype.toLowerCase, character by character. -/
def toLowerStr (s : String) : String := ⟨s.data.map Char.toLower⟩

/-- Worker for splitOnChar: JS String.prototype.split with a one-character separator. -/
def splitOnCharAux (sep : Char) : List Char → List Char → List (List Char)
  | [], acc => [acc.reverse]
  | c :: cs, acc =>
    if c = sep then acc.reverse :: splitOnCharAux sep cs []
    else splitOnCharAux sep cs (c :: acc)

/-- JS String.prototype.split with a one-character separator (the code only
splits on a dot or a slash). Like in JS, the result is never empty and an
input without the separator yields the whole string back. -/
def splitOnChar (sep : Char) (s : String) : List String :=
  (splitOnCharAux sep s.data []).map (fun cs => ⟨cs⟩)

/-- Join path segments with slashes. -/
def joinPath : List String → String
  | [] => ""
  | [p] => p
  | p :: rest => p ++ "/" ++ joinPath rest

/-- Worker for includesStr: does the needle occur at the head of the haystack. -/
def startsWithList : List Char → List Char → Bool
  | _, [] => true
  | [], _ :: _ => false
  | a :: as, b :: bs => a = b && startsWithList as bs

/-- Worker for includesStr over character lists. -/
def includesList (hay needle : List Char) : Bool :=
  match hay with
  | [] => needle.isEmpty
  | _ :: rest => startsWithList hay needle || includesList rest needle

/-- JS String.prototype.includes: substring test. -/
def includesStr (hay needle : String) : Bool := includesList hay.data needle.data

/-- JS String.prototype.replace with the plain string pattern a dot: removes the
first dot of the string, wherever it occurs (not only a leading dot). -/
def removeFirstDotAux : List Char → List Char
  | [] => []
  | c :: rest => if c = '.' then rest else c :: removeFirstDotAux rest

/-- replace of the first dot by the empty string, as in pattern.replace of the code. -/
def removeFirstDot (s : String) : String := ⟨removeFirstDotAux s.data⟩

/-- The observable filesystem: association list from relative path to file content. -/
abbrev FsState := List (String × String)

/-- Read the full content of the entry at a path, none when the entry is absent. -/
def lookupFs : FsState → String → Option String
  | [], _ => none
  | kv :: rest, p => if kv.1 = p then some kv.2 else lookupFs rest p

/-- removeEntry at a path: drop the entry. -/
def eraseFs (s : FsState) (p : String) : FsState := s.filter (fun kv => kv.1 != p)

/-- Create-or-truncate write of a whole content followed by a close
(getFileHandle with create, createWritable, write, close). -/
def writeFs (s : FsState) (p c : String) : FsState := (p, c) :: eraseFs s p

/-- One discovered file, after the FileMetadata interface (src/unnamed/part_002).
The kind field is always the string file for records built by startScan and is
omitted; the directory handle is represented by the relative path it denotes. -/
structure FileMetadata where
  name : String
  path : String
  size : Nat
  lastModified : Nat := 0
  extension : String := ""
  suggestedCategory : FileCategory := .Unknown
  isDuplicate : Bool := false
  duplicateGroupId : Option String := none
deriving DecidableEq, Repr

/-- One recorded move of the last organize pass (src/unnamed/part_002). -/
structure UndoRecord where
  fileName : String
  originalRelativePath : String
  category : FileCategory
deriving DecidableEq, Repr

/-- A duplicate group (src/unnamed/part_002). -/
structure DuplicateGroup where
  id : String
  files : List FileMetadata
  resolved : Bool := false
deriving DecidableEq, Repr

/-- Kind of a custom rule (src/unnamed/part_002). -/
inductive RuleType where
  | extension
  | keyword
deriving DecidableEq, Repr

/-- A user-authored classification rule (src/unnamed/part_002). -/
structure CustomRule where
  id : String
  type : RuleType
  pattern : String
  category : FileCategory
deriving DecidableEq, Repr

/-- Parent directory walk of getSubDirHandle (src/unnamed/part_001 lines 364-370):
split the relative path on the slash, pop the file name, and walk the remaining
parts, skipping empty parts. -/
def getSubDirParts (relativePath : String) : List String :=
  ((splitOnChar '/' relativePath).dropLast).filter (fun part => part != "")

/-- File name popped by getSubDirHandle: the last slash-separated segment. -/
def popFileName (relativePath : String) : String :=
  (splitOnChar '/' relativePath).getLastD ""

/-- Path addressed when the directory handle returned by getSubDirHandle for a
relative path is combined with an entry name. -/
def subDirTarget (path name : String) : String := joinPath (getSubDirParts path ++ [name])

/-- Path written by handleUndo: getSubDirHandle parent chain plus its popped
file name. For a path without empty segments this is the path itself. -/
def normalizePath (path : String) : String := subDirTarget path (popFileName path)

/-- Destination path of a file during handleOrganize: category folder plus file
name (getDirectoryHandle on the category string, then getFileHandle on name). -/
def destPath (f : FileMetadata) : String := catName f.suggestedCategory ++ "/" ++ f.name

/-- Path deleted by handleOrganize for a file: the getSubDirHandle parent of its
recorded path combined with the handle name (which equals the record name). -/
def srcTarget (f : FileMetadata) : String := subDirTarget f.path f.name

/-- Path of the organized copy that handleUndo reads and deletes for a record:
category folder plus recorded file name. -/
def catSrc (r : UndoRecord) : String := catName r.category ++ "/" ++ r.fileName

/-- The guard at the top of the handleOrganize loop (src/unnamed/part_001 line 434):
files suggested as Unknown or Junk are skipped with continue. -/
def skippedByOrganize (f : FileMetadata) : Bool :=
  f.suggestedCategory == FileCategory.Unknown || f.suggestedCategory == FileCategory.Junk

/-- Observable filesystem calls made by the move loops, in program order:
the write of a whole content into a destination, the close of the writable
stream, and the (attempted) removeEntry of an entry. -/
inductive FsEvent where
  | write (path content : String)
  | close (path : String)
  | delete (path : String)
deriving DecidableEq, Repr

/-- Outcome of the handleOrganize loop: final filesystem, emitted events, the
undo history accumulated so far, and whether the loop ran to completion. The
source commits the history to lastMoveHistory only when ok is true (the
setLastMoveHistory call sits after the loop inside the try block). -/
structure OrgResult where
  state : FsState
  events : List FsEvent
  hist : List UndoRecord
  ok : Bool
deriving DecidableEq, Repr

/-- The handleOrganize loop (src/unnamed/part_001 lines 425-449) over the list of
selected records. Per record: skip Unknown/Junk; read the whole source content
(getFile, failing when the entry is gone); write and close the category copy
(create-or-truncate); removeEntry the source through getSubDirHandle; push an
UndoRecord. The try block wraps the whole loop, so any failure aborts the
remaining iterations and the history is not committed. -/
def handleOrganize (s : FsState) : List FileMetadata → OrgResult
  | [] => ⟨s, [], [], true⟩
  | f :: rest =>
    if skippedByOrganize f then handleOrganize s rest
    else
      match lookupFs s f.path with
      | none => ⟨s, [], [], false⟩
      | some content =>
        let s1 := writeFs s (destPath f) content
        let evs := [FsEvent.write (destPath f) content, FsEvent.close (destPath f),
          FsEvent.delete (srcTarget f)]
        match lookupFs s1 (srcTarget f) with
        | none => ⟨s1, evs, [], false⟩
        | some _ =>
          let r := handleOrganize (eraseFs s1 (srcTarget f)) rest
          ⟨r.state, evs ++ r.events, ⟨f.name, f.path, f.suggestedCategory⟩ :: r.hist, r.ok⟩

/-- The undo history the caller observes after handleOrganize: committed only
when the loop completed, otherwise lastMoveHistory keeps its previous value. -/
def committedHistory (r : OrgResult) : Option (List UndoRecord) :=
  if r.ok then some r.hist else none

/-- Outcome of the handleUndo loop. -/
structure UndoResult where
  state : FsState
  events : List FsEvent
  ok : Bool
deriving DecidableEq, Repr

/-- The handleUndo loop (src/unnamed/part_001 lines 451-471) over the recorded
moves in original order. Per record: read the organized copy from the category
folder (failing when it is gone); write and close the content at the original
relative path rebuilt through getSubDirHandle; removeEntry the organized copy.
The try block wraps the whole loop, so any failure aborts the remaining
iterations. -/
def handleUndo (s : FsState) : List UndoRecord → UndoResult
  | [] => ⟨s, [], true⟩
  | r :: rest =>
    match lookupFs s (catSrc r) with
    | none => ⟨s, [], false⟩
    | some content =>
      let dst := normalizePath r.originalRelativePath
      let s1 := writeFs s dst content
      let evs := [FsEvent.write dst content, FsEvent.close dst, FsEvent.delete (catSrc r)]
      match lookupFs s1 (catSrc r) with
      | none => ⟨s1, evs, false⟩
      | some _ =>
        let u := handleUndo (eraseFs s1 (catSrc r)) rest
        ⟨u.state, evs ++ u.events, u.ok⟩

/-- Record from string keys to categories, as the JS object used by the
classifier service; later assignments overwrite earlier ones. -/
abbrev CatRecord := List (String × FileCategory)

/-- Read a key of the record. -/
def getRec : CatRecord → String → Option FileCategory
  | [], _ => none
  | kv :: rest, k => if kv.1 = k then some kv.2 else getRec rest k

/-- Assign a key of the record. -/
def setRec (m : CatRecord) (k : String) (v : FileCategory) : CatRecord :=
  (k, v) :: m.filter (fun kv => kv.1 != k)

/-- The fixed local extension table of fallbackCategorization
(src/src/geminiService.ts lines 81-89); unrecognized extensions fall back to
Unknown through the or-else on the lookup. -/
def extTable : String → FileCategory
  | "pdf" => .Documents
  | "docx" => .Documents
  | "txt" => .Documents
  | "jpg" => .Images
  | "png" => .Images
  | "gif" => .Images
  | "svg" => .Images
  | "mp4" => .Videos
  | "mov" => .Videos
  | "mkv" => .Videos
  | "zip" => .Archives
  | "rar" => .Archives
  | "tar" => .Archives
  | "exe" => .Installers
  | "dmg" => .Installers
  | "pkg" => .Installers
  | "js" => .Code
  | "ts" => .Code
  | "py" => .Code
  | "html" => .Code
  | "mp3" => .Audio
  | "wav" => .Audio
  | "flac" => .Audio
  | _ => .Unknown

/-- Extension of a name as computed throughout the code: split on the dot, pop
the last segment, lower-case it (name.split dot pop toLowerCase or-else empty). -/
def extOfName (name : String) : String :=
  toLowerStr ((splitOnChar '.' name).getLastD "")

/-- Category the local fallback assigns to one name. -/
def fallbackFor (name : String) : FileCategory := extTable (extOfName name)

/-- Worker for fallbackCategorization: the forEach loop assigning each name its
extension-table category into the accumulating record. -/
def fallbackAux : List String → CatRecord → CatRecord
  | [], m => m
  | n :: rest, m => fallbackAux rest (setRec m n (fallbackFor n))

/-- fallbackCategorization (src/src/geminiService.ts lines 79-97): assign every
name its extension-table category, starting from the empty record. -/
def fallbackCategorization (fileNames : List String) : CatRecord :=
  fallbackAux fileNames []

/-- The loop of categorizeFiles that fills every requested name still missing
from the result with its local fallback (src/src/geminiService.ts lines 64-69);
for one name the fallback of the singleton batch is its extension-table entry. -/
def fillMissing : List String → CatRecord → CatRecord
  | [], m => m
  | n :: rest, m =>
    fillMissing rest (if (getRec m n).isSome then m else setRec m n (fallbackFor n))

/-- The forEach loop over the parsed response items filling the result record
(src/src/geminiService.ts lines 52-58); later items overwrite earlier ones. -/
def buildParsed : List (String × FileCategory) → CatRecord → CatRecord
  | [], m => m
  | it :: rest, m => buildParsed rest (setRec m it.1 it.2)

/-- Outcome of the remote Gemini call as categorizeFiles observes it: the
generateContent call threw; the response carried no text; the text failed to
parse as JSON; or it parsed into an array of fileName/category items (the
response schema constrains categories to the enum values). A partial remote
response is parsed with items missing some requested names. -/
inductive RemoteOutcome where
  | err
  | noText
  | parseFail
  | parsed (items : List (String × FileCategory))
deriving DecidableEq, Repr

/-- categorizeFiles (src/src/geminiService.ts lines 6-76), parameterized by the
remote outcome. A throw anywhere in the try block falls back to the local table
for the whole batch; a missing or unparseable response body leaves the result
record empty; the final loop tops up every requested name that is still absent
with its local fallback. The function is total: no outcome raises. -/
def categorizeFiles (fileNames : List String) (outcome : RemoteOutcome) : CatRecord :=
  match outcome with
  | .err => fallbackCategorization fileNames
  | .noText => fallbackCategorization fileNames
  | .parseFail => fillMissing fileNames []
  | .parsed items => fillMissing fileNames (buildParsed items [])

/-- applyCustomRules (src/unnamed/part_001 lines 139-152): keyword rules first,
in declaration order, matching the lower-cased pattern as a substring of the
lower-cased file name; then extension rules, in declaration order, matching the
pattern with its first dot removed and lower-cased against the lower-cased
extension; null when nothing matches. -/
def kwRuleMatches (fileName : String) (r : CustomRule) : Bool :=
  includesStr (toLowerStr fileName) (toLowerStr r.pattern)

/-- Extension rule test of applyCustomRules: the clean pattern is the pattern
with its first dot removed (JS replace with a string pattern), lower-cased. -/
def extRuleMatches (extension : String) (r : CustomRule) : Bool :=
  toLowerStr extension == toLowerStr (removeFirstDot r.pattern)

/-- applyCustomRules itself. -/
def applyCustomRules (rules : List CustomRule) (fileName extension : String) :
    Option FileCategory :=
  match (rules.filter (fun r => r.type == RuleType.keyword)).find? (kwRuleMatches fileName) with
  | some r => some r.category
  | none =>
    match (rules.filter (fun r => r.type == RuleType.extension)).find? (extRuleMatches extension) with
    | some r => some r.category
    | none => none

/-- Size bucket of the duplicate grouping in startScan (src/unnamed/part_001
lines 195-199): the records sharing one exact size, in scan order. -/
def sizeBucket (files : List FileMetadata) (sz : Nat) : List FileMetadata :=
  files.filter (fun f => f.size == sz)

/-- Insertion into an ascending list, worker for sortedSizes. -/
def insertAsc (n : Nat) : List Nat → List Nat
  | [] => [n]
  | m :: rest => if n ≤ m then n :: m :: rest else m :: insertAsc n rest

/-- The distinct sizes in ascending numeric order: Object.entries enumerates the
integer-like keys of the sizeGroups record ascending. -/
def sortedSizes (files : List FileMetadata) : List Nat :=
  ((files.map (fun f => f.size)).dedup).foldr insertAsc []

/-- The duplicate groups built by startScan (src/unnamed/part_001 lines 201-211):
one group per size bucket with more than one record, with id group-size. -/
def duplicateGroupsOf (files : List FileMetadata) : List DuplicateGroup :=
  (sortedSizes files).filterMap (fun sz =>
    let bucket := sizeBucket files sz
    if 1 < bucket.length then some ⟨"group-" ++ toString sz, bucket, false⟩ else none)

/-- The per-record flag update done by the same loop: records of a bucket of
more than one get isDuplicate true and the group id; others are left untouched. -/
def markDuplicate (files : List FileMetadata) (f : FileMetadata) : FileMetadata :=
  if 1 < (sizeBucket files f.size).length then
    { f with isDuplicate := true, duplicateGroupId := some ("group-" ++ toString f.size) }
  else f

/-- All records after the duplicate grouping pass of startScan. -/
def markDuplicates (files : List FileMetadata) : List FileMetadata :=
  files.map (markDuplicate files)

/-- keepOne (src/unnamed/part_001 lines 336-344): find the group; for each of
its files, add its name to the deletion set unless it is the kept name, which
is removed. The deletion set is a JS Set of bare file names, modelled as a list
compared through membership. -/
def keepOne (duplicateGroups : List DuplicateGroup) (filesToDelete : List String)
    (groupId keepFileName : String) : List String :=
  match duplicateGroups.find? (fun g => g.id == groupId) with
  | none => filesToDelete
  | some group =>
    group.files.foldl (fun next f =>
      if f.name != keepFileName then
        if next.contains f.name then next else f.name :: next
      else next.filter (fun n => n != f.name)) filesToDelete

/-- removeEntry called directly on the scan root with a bare name: deletes the
top-level entry of that name, and throws (none) when there is none, as when the
file actually lives in a subdirectory. -/
def removeEntryRoot (s : FsState) (name : String) : Option FsState :=
  if (lookupFs s name).isSome then some (eraseFs s name) else none

/-- resolveDuplicates (src/unnamed/part_001 lines 323-334): for each marked name
try removeEntry on the root, swallowing any failure with an empty catch; then
drop every marked name from the in-memory file list regardless. -/
def resolveDuplicates (s : FsState) (files : List FileMetadata)
    (filesToDelete : List String) : FsState × List FileMetadata :=
  let s' := filesToDelete.foldl (fun st n =>
    match removeEntryRoot st n with
    | some st' => st'
    | none => st) s
  (s', files.filter (fun f => !filesToDelete.contains f.name))

/-- The records the handleOrganize loop actually processes: those not skipped
by the Unknown/Junk guard. -/
def activeFiles (fs : List FileMetadata) : List FileMetadata :=
  fs.filter (fun f => !skippedByOrganize f)

/-- The undo record handleOrganize pushes for a moved file. -/
def undoRecOf (f : FileMetadata) : UndoRecord := ⟨f.name, f.path, f.suggestedCategory⟩

/-- Scan-produced records address themselves consistently: the removeEntry
target rebuilt from path and name is the path itself, and rebuilding the path
through getSubDirHandle is the identity. startScan always builds the path as
the parent chain joined with the entry name, so its records satisfy this. -/
abbrev pathWellFormed (f : FileMetadata) : Prop :=
  srcTarget f = f.path ∧ normalizePath f.path = f.path

/-- Collision-freedom preconditions for one organize pass: processed records
are well formed, have pairwise distinct source paths and pairwise distinct
destination paths, every source is present, and no destination path exists yet. -/
abbrev OrganizePre (s : FsState) (fs : List FileMetadata) : Prop :=
  (∀ f ∈ activeFiles fs, pathWellFormed f) ∧
  ((activeFiles fs).map (fun f => f.path)).Nodup ∧
  ((activeFiles fs).map destPath).Nodup ∧
  (∀ f ∈ activeFiles fs, (lookupFs s f.path).isSome) ∧
  (∀ f ∈ activeFiles fs, lookupFs s (destPath f) = none)

/-- Path handleUndo restores a record to. -/
def undoDst (r : UndoRecord) : String := normalizePath r.originalRelativePath

/-- Collision-freedom preconditions for one undo pass: every organized copy is
present, organized copies and restore targets are pairwise distinct, and no
organized copy path coincides with any restore target. -/
abbrev UndoPre (s : FsState) (hist : List UndoRecord) : Prop :=
  (∀ r ∈ hist, (lookupFs s (catSrc r)).isSome) ∧
  (hist.map catSrc).Nodup ∧
  (hist.map undoDst).Nodup ∧
  (∀ r ∈ hist, ∀ q ∈ hist, catSrc r ≠ undoDst q)

/-- Modelled from the claim wording of C6, for comparison with the code: the
claimed normalization of an extension rule pattern lower-cases it and strips
one leading dot (only a leading one). The code instead removes the first dot
wherever it occurs. -/
def specExtNormalize (pattern : String) : String :=
  toLowerStr (if pattern.data.head? = some '.' then ⟨pattern.data.tail⟩ else pattern)

/-! Basic facts about the filesystem model. -/

@[simp]
theorem lookupFs_eraseFs (s : FsState) (p q : String) :
    lookupFs (eraseFs s p) q = if q = p then none else lookupFs s q := by
  induction s with
  | nil => simp [eraseFs, lookupFs]
  | cons kv rest ih =>
    simp only [eraseFs, List.filter_cons] at ih ⊢
    by_cases h1 : kv.1 = p
    · simp only [h1, bne_self_eq_false, Bool.false_eq_true, if_false, ih, lookupFs]
      by_cases h2 : q = p
      · simp [h2]
      · have h3 : ¬ p = q := fun h => h2 h.symm
        simp [h2, h3]
    · have hb : (kv.1 != p) = true := by simpa using h1
      simp only [hb, if_true, lookupFs, ih]
      by_cases h2 : kv.1 = q
      · have : ¬ q = p := fun h => h1 (h ▸ h2)
        simp [h2, this]
      · simp [h2]

@[simp]
theorem lookupFs_writeFs (s : FsState) (p c q : String) :
    lookupFs (writeFs s p c) q = if q = p then some c else lookupFs s q := by
  simp only [writeFs, lookupFs, lookupFs_eraseFs]
  by_cases h : p = q
  · simp [h]
  · have h2 : ¬ q = p := fun hq => h hq.symm
    simp [h, h2]

/-- Every content a lookup can return is one of the stored contents. -/
theorem lookupFs_mem_values (s : FsState) (p c : String) (h : lookupFs s p = some c) :
    c ∈ s.map Prod.snd := by
  induction s with
  | nil => simp [lookupFs] at h
  | cons kv rest ih =>
    simp only [lookupFs] at h
    by_cases h1 : kv.1 = p
    · simp [h1] at h
      simp [h]
    · simp [h1] at h
      simp [ih h]

/-! Organize loop analysis. -/

theorem activeFiles_cons_skip (f : FileMetadata) (rest : List FileMetadata)
    (h : skippedByOrganize f = true) : activeFiles (f :: rest) = activeFiles rest := by
  simp [activeFiles, List.filter_cons, h]

theorem activeFiles_cons_active (f : FileMetadata) (rest : List FileMetadata)
    (h : skippedByOrganize f = false) : activeFiles (f :: rest) = f :: activeFiles rest := by
  simp [activeFiles, List.filter_cons, h]

theorem handleOrganize_cons_skip (s : FsState) (f : FileMetadata) (rest : List FileMetadata)
    (h : skippedByOrganize f = true) : handleOrganize s (f :: rest) = handleOrganize s rest := by
  simp [handleOrganize, h]

theorem handleOrganize_cons_active (s : FsState) (f : FileMetadata) (rest : List FileMetadata)
    (hskip : skippedByOrganize f = false) (hwf : srcTarget f = f.path) (c : String)
    (hc : lookupFs s f.path = some c) (hne : f.path ≠ destPath f) :
    handleOrganize s (f :: rest) =
      ⟨(handleOrganize (eraseFs (writeFs s (destPath f) c) f.path) rest).state,
        [FsEvent.write (destPath f) c, FsEvent.close (destPath f), FsEvent.delete f.path] ++
          (handleOrganize (eraseFs (writeFs s (destPath f) c) f.path) rest).events,
        undoRecOf f :: (handleOrganize (eraseFs (writeFs s (destPath f) c) f.path) rest).hist,
        (handleOrganize (eraseFs (writeFs s (destPath f) c) f.path) rest).ok⟩ := by
  simp only [handleOrganize, hskip, Bool.false_eq_true, if_false, hc, hwf, lookupFs_writeFs,
    if_neg hne, undoRecOf]

theorem handleOrganize_cons_readfail (s : FsState) (f : FileMetadata)
    (rest : List FileMetadata) (hskip : skippedByOrganize f = false)
    (hc : lookupFs s f.path = none) :
    handleOrganize s (f :: rest) = ⟨s, [], [], false⟩ := by
  simp only [handleOrganize, hskip, Bool.false_eq_true, if_false, hc]

theorem handleOrganize_cons_removefail (s : FsState) (f : FileMetadata)
    (rest : List FileMetadata) (hskip : skippedByOrganize f = false) (c : String)
    (hc : lookupFs s f.path = some c)
    (hc2 : lookupFs (writeFs s (destPath f) c) (srcTarget f) = none) :
    handleOrganize s (f :: rest) =
      ⟨writeFs s (destPath f) c,
        [FsEvent.write (destPath f) c, FsEvent.close (destPath f),
          FsEvent.delete (srcTarget f)], [], false⟩ := by
  simp only [handleOrganize, hskip, Bool.false_eq_true, if_false, hc, hc2]

theorem handleOrganize_cons_full (s : FsState) (f : FileMetadata)
    (rest : List FileMetadata) (hskip : skippedByOrganize f = false) (c : String)
    (hc : lookupFs s f.path = some c) (d : String)
    (hc2 : lookupFs (writeFs s (destPath f) c) (srcTarget f) = some d) :
    handleOrganize s (f :: rest) =
      ⟨(handleOrganize (eraseFs (writeFs s (destPath f) c) (srcTarget f)) rest).state,
        [FsEvent.write (destPath f) c, FsEvent.close (destPath f),
          FsEvent.delete (srcTarget f)] ++
          (handleOrganize (eraseFs (writeFs s (destPath f) c) (srcTarget f)) rest).events,
        undoRecOf f ::
          (handleOrganize (eraseFs (writeFs s (destPath f) c) (srcTarget f)) rest).hist,
        (handleOrganize (eraseFs (writeFs s (destPath f) c) (srcTarget f)) rest).ok⟩ := by
  simp only [handleOrganize, hskip, Bool.false_eq_true, if_false, hc, hc2, undoRecOf]

/-- Unpacking of the precondition at an unskipped head record. -/
theorem OrganizePre_cons (s : FsState) (f : FileMetadata) (rest : List FileMetadata)
    (hpre : OrganizePre s (f :: rest)) (hskip : skippedByOrganize f = false) :
    ∃ c, lookupFs s f.path = some c ∧ srcTarget f = f.path ∧ normalizePath f.path = f.path ∧
      f.path ≠ destPath f ∧
      (∀ g ∈ activeFiles rest, f.path ≠ g.path ∧ destPath f ≠ destPath g ∧
        f.path ≠ destPath g ∧ destPath f ≠ g.path) ∧
      OrganizePre (eraseFs (writeFs s (destPath f) c) f.path) rest := by
  obtain ⟨hwf, hnp, hnd, hpres, hfresh⟩ := hpre
  rw [activeFiles_cons_active f rest hskip] at hwf hnp hnd hpres hfresh
  have hfmem : f ∈ f :: activeFiles rest := List.mem_cons_self f _
  obtain ⟨c, hc⟩ := Option.isSome_iff_exists.mp (hpres f hfmem)
  have hffresh : lookupFs s (destPath f) = none := hfresh f hfmem
  have hne : f.path ≠ destPath f := by
    intro h
    rw [← h] at hffresh
    rw [hffresh] at hc
    exact Option.noConfusion hc
  simp only [List.map_cons, List.nodup_cons] at hnp hnd
  refine ⟨c, hc, (hwf f hfmem).1, (hwf f hfmem).2, hne, ?_, ?_⟩
  · intro g hg
    have hg' : g ∈ f :: activeFiles rest := List.mem_cons_of_mem f hg
    have h1 : f.path ≠ g.path := fun h => hnp.1 (h ▸ List.mem_map_of_mem (fun x => x.path) hg)
    have h2 : destPath f ≠ destPath g :=
      fun h => hnd.1 (h ▸ List.mem_map_of_mem destPath hg)
    have h3 : f.path ≠ destPath g := by
      intro h
      have := hfresh g hg'
      rw [← h] at this
      rw [this] at hc
      exact Option.noConfusion hc
    have h4 : destPath f ≠ g.path := by
      intro h
      have := hpres g hg'
      rw [← h, hffresh] at this
      simp at this
    exact ⟨h1, h2, h3, h4⟩
  · refine ⟨fun g hg => hwf g (List.mem_cons_of_mem f hg), hnp.2, hnd.2, ?_, ?_⟩
    · intro g hg
      have hg' : g ∈ f :: activeFiles rest := List.mem_cons_of_mem f hg
      have h1 : ¬ g.path = f.path :=
        fun h => hnp.1 (h ▸ List.mem_map_of_mem (fun x => x.path) hg)
      have h2 : ¬ g.path = destPath f := by
        intro h
        have := hpres g hg'
        rw [h, hffresh] at this
        simp at this
      simp [h1, h2, hpres g hg']
    · intro g hg
      have hg' : g ∈ f :: activeFiles rest := List.mem_cons_of_mem f hg
      have h1 : ¬ destPath g = f.path := by
        intro h
        have := hfresh g hg'
        rw [← h] at hc
        rw [hc] at this
        exact Option.noConfusion this
      have h2 : ¬ destPath g = destPath f :=
        fun h => hnd.1 (h ▸ List.mem_map_of_mem destPath hg)
      simp [h1, h2, hfresh g hg']

/-- Under the collision-freedom preconditions, one organize pass completes,
records exactly the processed files in order, moves every processed file from
its source path to its destination path, and leaves every other path alone. -/
theorem handleOrganize_spec (fs : List FileMetadata) : ∀ s : FsState, OrganizePre s fs →
    (handleOrganize s fs).ok = true ∧
    (handleOrganize s fs).hist = (activeFiles fs).map undoRecOf ∧
    (∀ p, (∀ f ∈ activeFiles fs, p ≠ f.path ∧ p ≠ destPath f) →
      lookupFs (handleOrganize s fs).state p = lookupFs s p) ∧
    (∀ f ∈ activeFiles fs,
      lookupFs (handleOrganize s fs).state (destPath f) = lookupFs s f.path) ∧
    (∀ f ∈ activeFiles fs, lookupFs (handleOrganize s fs).state f.path = none) := by
  induction fs with
  | nil =>
    intro s _
    simp [handleOrganize, activeFiles]
  | cons f rest ih =>
    intro s hpre
    by_cases hskip : skippedByOrganize f = true
    · rw [handleOrganize_cons_skip s f rest hskip, activeFiles_cons_skip f rest hskip]
      refine ih s ?_
      unfold OrganizePre at hpre ⊢
      rwa [activeFiles_cons_skip f rest hskip] at hpre
    · have hskip' : skippedByOrganize f = false := by
        revert hskip
        cases skippedByOrganize f <;> simp
      obtain ⟨c, hc, hwf1, hwf2, hne, hsep, hpre2⟩ := OrganizePre_cons s f rest hpre hskip'
      rw [handleOrganize_cons_active s f rest hskip' hwf1 c hc hne,
        activeFiles_cons_active f rest hskip']
      obtain ⟨iok, ihist, iframe, idst, isrc⟩ :=
        ih (eraseFs (writeFs s (destPath f) c) f.path) hpre2
      refine ⟨iok, ?_, ?_, ?_, ?_⟩
      · simp only [List.map_cons]
        rw [ihist]
      · intro p hp
        have hpf := hp f (List.mem_cons_self f _)
        have hprest : ∀ g ∈ activeFiles rest, p ≠ g.path ∧ p ≠ destPath g :=
          fun g hg => hp g (List.mem_cons_of_mem f hg)
        show lookupFs (handleOrganize (eraseFs (writeFs s (destPath f) c) f.path) rest).state p
          = lookupFs s p
        rw [iframe p hprest]
        simp [hpf.1, hpf.2]
      · intro g hg
        rcases List.mem_cons.mp hg with rfl | hg'
        · show lookupFs (handleOrganize (eraseFs (writeFs s (destPath g) c) g.path) rest).state
            (destPath g) = lookupFs s g.path
          rw [iframe (destPath g) (fun h hh => ⟨(hsep h hh).2.2.2, (hsep h hh).2.1⟩)]
          have hne' : ¬ destPath g = g.path := fun h => hne h.symm
          simp [hne', hc]
        · show lookupFs (handleOrganize (eraseFs (writeFs s (destPath f) c) f.path) rest).state
            (destPath g) = lookupFs s g.path
          rw [idst g hg']
          have h1 : ¬ g.path = f.path := fun h => (hsep g hg').1 h.symm
          have h2 : ¬ g.path = destPath f := fun h => (hsep g hg').2.2.2 h.symm
          simp [h1, h2]
      · intro g hg
        rcases List.mem_cons.mp hg with rfl | hg'
        · show lookupFs (handleOrganize (eraseFs (writeFs s (destPath g) c) g.path) rest).state
            g.path = none
          rw [iframe g.path (fun h hh => ⟨(hsep h hh).1, (hsep h hh).2.2.1⟩)]
          simp
        · exact isrc g hg'

/-! Undo loop analysis. -/

theorem handleUndo_cons (s : FsState) (r : UndoRecord) (rest : List UndoRecord)
    (c : String) (hc : lookupFs s (catSrc r) = some c) :
    handleUndo s (r :: rest) =
      ⟨(handleUndo (eraseFs (writeFs s (undoDst r) c) (catSrc r)) rest).state,
        [FsEvent.write (undoDst r) c, FsEvent.close (undoDst r), FsEvent.delete (catSrc r)] ++
          (handleUndo (eraseFs (writeFs s (undoDst r) c) (catSrc r)) rest).events,
        (handleUndo (eraseFs (writeFs s (undoDst r) c) (catSrc r)) rest).ok⟩ := by
  simp only [handleUndo, hc, lookupFs_writeFs, undoDst]
  by_cases h : catSrc r = normalizePath r.originalRelativePath <;> simp [h, hc]

/-- Unpacking of the undo precondition at the head record. -/
theorem UndoPre_cons (s : FsState) (r : UndoRecord) (rest : List UndoRecord)
    (hpre : UndoPre s (r :: rest)) :
    ∃ c, lookupFs s (catSrc r) = some c ∧ catSrc r ≠ undoDst r ∧
      (∀ q ∈ rest, catSrc r ≠ catSrc q ∧ undoDst r ≠ undoDst q ∧
        catSrc r ≠ undoDst q ∧ catSrc q ≠ undoDst r) ∧
      UndoPre (eraseFs (writeFs s (undoDst r) c) (catSrc r)) rest := by
  obtain ⟨hpres, hnc, hnd, hcross⟩ := hpre
  have hrmem : r ∈ r :: rest := List.mem_cons_self r _
  obtain ⟨c, hc⟩ := Option.isSome_iff_exists.mp (hpres r hrmem)
  simp only [List.map_cons, List.nodup_cons] at hnc hnd
  refine ⟨c, hc, hcross r hrmem r hrmem, ?_, ?_⟩
  · intro q hq
    have hq' : q ∈ r :: rest := List.mem_cons_of_mem r hq
    refine ⟨fun h => hnc.1 (h ▸ List.mem_map_of_mem catSrc hq),
      fun h => hnd.1 (h ▸ List.mem_map_of_mem undoDst hq),
      hcross r hrmem q hq', hcross q hq' r hrmem⟩
  · refine ⟨?_, hnc.2, hnd.2, fun a ha b hb =>
      hcross a (List.mem_cons_of_mem r ha) b (List.mem_cons_of_mem r hb)⟩
    intro q hq
    have hq' : q ∈ r :: rest := List.mem_cons_of_mem r hq
    have h1 : ¬ catSrc q = catSrc r := fun h => hnc.1 (h ▸ List.mem_map_of_mem catSrc hq)
    have h2 : ¬ catSrc q = undoDst r := hcross q hq' r hrmem
    simp [h1, h2, hpres q hq']

/-- Under the collision-freedom preconditions, one undo pass completes, moves
every organized copy back to its restore target, and leaves every other path
alone. -/
theorem handleUndo_spec (hist : List UndoRecord) : ∀ s : FsState, UndoPre s hist →
    (handleUndo s hist).ok = true ∧
    (∀ p, (∀ r ∈ hist, p ≠ catSrc r ∧ p ≠ undoDst r) →
      lookupFs (handleUndo s hist).state p = lookupFs s p) ∧
    (∀ r ∈ hist, lookupFs (handleUndo s hist).state (undoDst r) = lookupFs s (catSrc r)) ∧
    (∀ r ∈ hist, lookupFs (handleUndo s hist).state (catSrc r) = none) := by
  induction hist with
  | nil =>
    intro s _
    simp [handleUndo]
  | cons r rest ih =>
    intro s hpre
    obtain ⟨c, hc, hner, hsep, hpre2⟩ := UndoPre_cons s r rest hpre
    rw [handleUndo_cons s r rest c hc]
    obtain ⟨iok, iframe, idst, isrc⟩ := ih (eraseFs (writeFs s (undoDst r) c) (catSrc r)) hpre2
    refine ⟨iok, ?_, ?_, ?_⟩
    · intro p hp
      have hpr := hp r (List.mem_cons_self r _)
      show lookupFs (handleUndo (eraseFs (writeFs s (undoDst r) c) (catSrc r)) rest).state p
        = lookupFs s p
      rw [iframe p (fun q hq => hp q (List.mem_cons_of_mem r hq))]
      simp [hpr.1, hpr.2]
    · intro q hq
      rcases List.mem_cons.mp hq with rfl | hq'
      · show lookupFs (handleUndo (eraseFs (writeFs s (undoDst q) c) (catSrc q)) rest).state
          (undoDst q) = lookupFs s (catSrc q)
        rw [iframe (undoDst q) (fun a ha => ⟨fun h => (hsep a ha).2.2.2 h.symm,
          (hsep a ha).2.1⟩)]
        have h1 : ¬ undoDst q = catSrc q := fun h => hner h.symm
        simp [h1, hc]
      · show lookupFs (handleUndo (eraseFs (writeFs s (undoDst r) c) (catSrc r)) rest).state
          (undoDst q) = lookupFs s (catSrc q)
        rw [idst q hq']
        have h1 : ¬ catSrc q = catSrc r := fun h => (hsep q hq').1 h.symm
        have h2 : ¬ catSrc q = undoDst r := (hsep q hq').2.2.2
        simp [h1, h2]
    · intro q hq
      rcases List.mem_cons.mp hq with rfl | hq'
      · show lookupFs (handleUndo (eraseFs (writeFs s (undoDst q) c) (catSrc q)) rest).state
          (catSrc q) = none
        rw [iframe (catSrc q) (fun a ha => ⟨(hsep a ha).1, (hsep a ha).2.2.1⟩)]
        simp
      · exact isrc q hq'

@[simp]
theorem catSrc_undoRecOf (f : FileMetadata) : catSrc (undoRecOf f) = destPath f := rfl

@[simp]
theorem undoDst_undoRecOf (f : FileMetadata) :
    undoDst (undoRecOf f) = normalizePath f.path := rfl

/-- The history recorded by a clean organize pass satisfies the undo
preconditions on the post-organize state. -/
theorem UndoPre_of_organize (s : FsState) (fs : List FileMetadata)
    (hpre : OrganizePre s fs) :
    UndoPre (handleOrganize s fs).state ((activeFiles fs).map undoRecOf) := by
  obtain ⟨hok, hhist, hframe, hdst, hsrc⟩ := handleOrganize_spec fs s hpre
  obtain ⟨hwf, hnp, hnd, hpres, hfresh⟩ := hpre
  have hmapc : ((activeFiles fs).map undoRecOf).map catSrc = (activeFiles fs).map destPath := by
    rw [List.map_map]
    rfl
  have hmapd : ((activeFiles fs).map undoRecOf).map undoDst
      = (activeFiles fs).map (fun f => f.path) := by
    rw [List.map_map]
    exact List.map_congr_left (fun f hf => (hwf f hf).2)
  refine ⟨?_, ?_, ?_, ?_⟩
  · intro r hr
    obtain ⟨f, hf, rfl⟩ := List.mem_map.mp hr
    rw [catSrc_undoRecOf, hdst f hf]
    exact hpres f hf
  · rw [hmapc]
    exact hnd
  · rw [hmapd]
    exact hnp
  · intro r hr q hq
    obtain ⟨f, hf, rfl⟩ := List.mem_map.mp hr
    obtain ⟨g, hg, rfl⟩ := List.mem_map.mp hq
    rw [catSrc_undoRecOf, undoDst_undoRecOf, (hwf g hg).2]
    intro h
    have := hpres g hg
    rw [← h, hfresh f hf] at this
    simp at this

/-- C2 (amended): for a single organize pass over a selection of scanned files
whose processed records have pairwise distinct source paths, pairwise distinct
destination paths, all sources present and no destination already existing,
running handleOrganize and then handleUndo on the recorded history completes
both passes and yields a filesystem observably identical, path by path and
content by content, to the state before the organize pass. -/
theorem organize_undo_roundtrip (s : FsState) (fs : List FileMetadata)
    (hpre : OrganizePre s fs) :
    (handleOrganize s fs).ok = true ∧
    (handleUndo (handleOrganize s fs).state (handleOrganize s fs).hist).ok = true ∧
    ∀ p, lookupFs (handleUndo (handleOrganize s fs).state (handleOrganize s fs).hist).state p
      = lookupFs s p := by
  obtain ⟨hok, hhist, hframe, hdstv, hsrcv⟩ := handleOrganize_spec fs s hpre
  have hupre := UndoPre_of_organize s fs hpre
  rw [← hhist] at hupre
  obtain ⟨uok, uframe, udst, usrc⟩ := handleUndo_spec ((handleOrganize s fs).hist) _ hupre
  obtain ⟨hwf, hnp, hnd, hpres, hfresh⟩ := hpre
  refine ⟨hok, uok, ?_⟩
  intro p
  by_cases hs : ∃ f ∈ activeFiles fs, p = f.path
  · obtain ⟨f, hf, rfl⟩ := hs
    have hr : undoRecOf f ∈ (handleOrganize s fs).hist := by
      rw [hhist]
      exact List.mem_map_of_mem undoRecOf hf
    have hu := udst (undoRecOf f) hr
    rw [undoDst_undoRecOf, (hwf f hf).2, catSrc_undoRecOf] at hu
    rw [hu, hdstv f hf]
  · by_cases hd : ∃ f ∈ activeFiles fs, p = destPath f
    · obtain ⟨f, hf, rfl⟩ := hd
      have hr : undoRecOf f ∈ (handleOrganize s fs).hist := by
        rw [hhist]
        exact List.mem_map_of_mem undoRecOf hf
      have hu := usrc (undoRecOf f) hr
      rw [catSrc_undoRecOf] at hu
      rw [hu, hfresh f hf]
    · push_neg at hs hd
      have h1 : ∀ r ∈ (handleOrganize s fs).hist, p ≠ catSrc r ∧ p ≠ undoDst r := by
        intro r hr
        rw [hhist] at hr
        obtain ⟨f, hf, rfl⟩ := List.mem_map.mp hr
        rw [catSrc_undoRecOf, undoDst_undoRecOf, (hwf f hf).2]
        exact ⟨hd f hf, hs f hf⟩
      rw [uframe p h1]
      exact hframe p (fun f hf => ⟨hs f hf, hd f hf⟩)

/-- Witness for C2 at a concrete clean pass: undoing the organize pass of one
nested pdf restores its content at its original path. -/
theorem organize_undo_roundtrip_witness :
    lookupFs (handleUndo
        (handleOrganize [("docs/y.pdf", "Y"), ("other", "O")]
          [{ name := "y.pdf", path := "docs/y.pdf", size := 2,
             suggestedCategory := FileCategory.Documents }]).state
        (handleOrganize [("docs/y.pdf", "Y"), ("other", "O")]
          [{ name := "y.pdf", path := "docs/y.pdf", size := 2,
             suggestedCategory := FileCategory.Documents }]).hist).state "docs/y.pdf"
      = lookupFs [("docs/y.pdf", "Y"), ("other", "O")] "docs/y.pdf" :=
  (organize_undo_roundtrip [("docs/y.pdf", "Y"), ("other", "O")]
    [{ name := "y.pdf", path := "docs/y.pdf", size := 2,
       suggestedCategory := FileCategory.Documents }] (by decide)).2.2 "docs/y.pdf"

/-- Counterexample to C2 as stated: two selected files named x in different
subdirectories, both categorized Documents. The second overwrites the first at
Documents/x, the undo pass restores the wrong content at a/x and then aborts,
and the content at b/x is gone, so the result is not identical to the
pre-organize state. -/
theorem organize_undo_roundtrip_counterexample :
    lookupFs (handleUndo
        (handleOrganize [("a/x", "A"), ("b/x", "B")]
          [{ name := "x", path := "a/x", size := 1,
             suggestedCategory := FileCategory.Documents },
           { name := "x", path := "b/x", size := 1,
             suggestedCategory := FileCategory.Documents }]).state
        (handleOrganize [("a/x", "A"), ("b/x", "B")]
          [{ name := "x", path := "a/x", size := 1,
             suggestedCategory := FileCategory.Documents },
           { name := "x", path := "b/x", size := 1,
             suggestedCategory := FileCategory.Documents }]).hist).state "b/x" = none ∧
    lookupFs [("a/x", "A"), ("b/x", "B")] "b/x" = some "B" ∧
    (handleUndo
        (handleOrganize [("a/x", "A"), ("b/x", "B")]
          [{ name := "x", path := "a/x", size := 1,
             suggestedCategory := FileCategory.Documents },
           { name := "x", path := "b/x", size := 1,
             suggestedCategory := FileCategory.Documents }]).state
        (handleOrganize [("a/x", "A"), ("b/x", "B")]
          [{ name := "x", path := "a/x", size := 1,
             suggestedCategory := FileCategory.Documents },
           { name := "x", path := "b/x", size := 1,
             suggestedCategory := FileCategory.Documents }]).hist).ok = false := by
  decide

/-- C8: during handleOrganize, every selected file whose category is Unknown or
Junk is skipped entirely: the pass is observably identical, in final state,
emitted filesystem events, undo history and completion flag, to the pass over
the selection with those files removed, for every state and selection. -/
theorem organize_skips_unknown_junk (s : FsState) (fs : List FileMetadata) :
    handleOrganize s fs = handleOrganize s (fs.filter (fun f => !skippedByOrganize f)) := by
  induction fs generalizing s with
  | nil => rfl
  | cons f rest ih =>
    by_cases h : skippedByOrganize f = true
    · have hfil : (f :: rest).filter (fun f => !skippedByOrganize f)
          = rest.filter (fun f => !skippedByOrganize f) := by
        simp [List.filter_cons, h]
      rw [handleOrganize_cons_skip s f rest h, hfil]
      exact ih s
    · have h' : skippedByOrganize f = false := by
        revert h
        cases skippedByOrganize f <;> simp
      have hfil : (f :: rest).filter (fun f => !skippedByOrganize f)
          = f :: rest.filter (fun f => !skippedByOrganize f) := by
        simp [List.filter_cons, h']
      rw [hfil]
      cases hc : lookupFs s f.path with
      | none =>
        rw [handleOrganize_cons_readfail s f rest h' hc,
          handleOrganize_cons_readfail s f _ h' hc]
      | some c =>
        cases hc2 : lookupFs (writeFs s (destPath f) c) (srcTarget f) with
        | none =>
          rw [handleOrganize_cons_removefail s f rest h' c hc hc2,
            handleOrganize_cons_removefail s f _ h' c hc hc2]
        | some d =>
          rw [handleOrganize_cons_full s f rest h' c hc d hc2,
            handleOrganize_cons_full s f _ h' c hc d hc2,
            ih (eraseFs (writeFs s (destPath f) c) (srcTarget f))]

/-- C3 (amended): once a per-file failure has aborted the organize loop over a
prefix of the selection, the remaining selected files are not processed at all
(appending them changes nothing observable) and no undo history is committed
for the pass, so the caller does not see a completed batch. -/
theorem organize_failure_aborts_batch (s : FsState) (fs more : List FileMetadata)
    (h : (handleOrganize s fs).ok = false) :
    handleOrganize s (fs ++ more) = handleOrganize s fs ∧
    committedHistory (handleOrganize s (fs ++ more)) = none := by
  have main : ∀ s : FsState, (handleOrganize s fs).ok = false →
      handleOrganize s (fs ++ more) = handleOrganize s fs := by
    clear h
    induction fs with
    | nil =>
      intro s h0
      simp [handleOrganize] at h0
    | cons f rest ih =>
      intro s h0
      by_cases hskip : skippedByOrganize f = true
      · rw [List.cons_append, handleOrganize_cons_skip s f (rest ++ more) hskip,
          handleOrganize_cons_skip s f rest hskip]
        rw [handleOrganize_cons_skip s f rest hskip] at h0
        exact ih s h0
      · have h' : skippedByOrganize f = false := by
          revert hskip
          cases skippedByOrganize f <;> simp
        rw [List.cons_append]
        cases hc : lookupFs s f.path with
        | none =>
          rw [handleOrganize_cons_readfail s f (rest ++ more) h' hc,
            handleOrganize_cons_readfail s f rest h' hc]
        | some c =>
          cases hc2 : lookupFs (writeFs s (destPath f) c) (srcTarget f) with
          | none =>
            rw [handleOrganize_cons_removefail s f (rest ++ more) h' c hc hc2,
              handleOrganize_cons_removefail s f rest h' c hc hc2]
          | some d =>
            rw [handleOrganize_cons_full s f rest h' c hc d hc2] at h0
            simp only [] at h0
            rw [handleOrganize_cons_full s f (rest ++ more) h' c hc d hc2,
              handleOrganize_cons_full s f rest h' c hc d hc2,
              ih (eraseFs (writeFs s (destPath f) c) (srcTarget f)) h0]
  have hmain := main s h
  refine ⟨hmain, ?_⟩
  rw [hmain]
  simp [committedHistory, h]

/-- Witness for C3 (amended) at a concrete aborted pass: the first file moves,
the second read fails, and the appended third file is never processed while no
history is committed. -/
theorem organize_failure_aborts_batch_witness :
    handleOrganize [("a/x", "A")]
        ([{ name := "x", path := "a/x", size := 1,
            suggestedCategory := FileCategory.Documents },
          { name := "m", path := "m", size := 1,
            suggestedCategory := FileCategory.Images }] ++
         [{ name := "y.pdf", path := "docs/y.pdf", size := 2,
            suggestedCategory := FileCategory.Documents }])
      = handleOrganize [("a/x", "A")]
        [{ name := "x", path := "a/x", size := 1,
           suggestedCategory := FileCategory.Documents },
         { name := "m", path := "m", size := 1,
           suggestedCategory := FileCategory.Images }] ∧
    committedHistory (handleOrganize [("a/x", "A")]
        ([{ name := "x", path := "a/x", size := 1,
            suggestedCategory := FileCategory.Documents },
          { name := "m", path := "m", size := 1,
            suggestedCategory := FileCategory.Images }] ++
         [{ name := "y.pdf", path := "docs/y.pdf", size := 2,
            suggestedCategory := FileCategory.Documents }])) = none :=
  organize_failure_aborts_batch [("a/x", "A")] _ _ (by decide)

/-- Counterexample to C3 as stated: with the second selected file failing (its
source entry is absent), the loop stops, the third selected file is neither
copied nor deleted, and the caller does not see a completed batch: no undo
history is committed at all. -/
theorem organize_failure_counterexample :
    (handleOrganize [("a/x", "A"), ("docs/y.pdf", "Y")]
      [{ name := "x", path := "a/x", size := 1,
         suggestedCategory := FileCategory.Documents },
       { name := "m", path := "m", size := 1,
         suggestedCategory := FileCategory.Images },
       { name := "y.pdf", path := "docs/y.pdf", size := 2,
         suggestedCategory := FileCategory.Documents }]).ok = false ∧
    lookupFs (handleOrganize [("a/x", "A"), ("docs/y.pdf", "Y")]
      [{ name := "x", path := "a/x", size := 1,
         suggestedCategory := FileCategory.Documents },
       { name := "m", path := "m", size := 1,
         suggestedCategory := FileCategory.Images },
       { name := "y.pdf", path := "docs/y.pdf", size := 2,
         suggestedCategory := FileCategory.Documents }]).state "docs/y.pdf" = some "Y" ∧
    lookupFs (handleOrganize [("a/x", "A"), ("docs/y.pdf", "Y")]
      [{ name := "x", path := "a/x", size := 1,
         suggestedCategory := FileCategory.Documents },
       { name := "m", path := "m", size := 1,
         suggestedCategory := FileCategory.Images },
       { name := "y.pdf", path := "docs/y.pdf", size := 2,
         suggestedCategory := FileCategory.Documents }]).state "Documents/y.pdf" = none ∧
    committedHistory (handleOrganize [("a/x", "A"), ("docs/y.pdf", "Y")]
      [{ name := "x", path := "a/x", size := 1,
         suggestedCategory := FileCategory.Documents },
       { name := "m", path := "m", size := 1,
         suggestedCategory := FileCategory.Images },
       { name := "y.pdf", path := "docs/y.pdf", size := 2,
         suggestedCategory := FileCategory.Documents }]) = none := by
  decide

/-- C9: when two selected files share a name and a category, handleOrganize
does not fail with a collision: the pass completes, the destination holds the
content of the later file, both source entries are deleted, and the content of
the earlier file is no longer stored anywhere in the final filesystem. -/
theorem organize_collision_overwrites :
    (handleOrganize [("a/x", "A"), ("b/x", "B")]
      [{ name := "x", path := "a/x", size := 1,
         suggestedCategory := FileCategory.Documents },
       { name := "x", path := "b/x", size := 1,
         suggestedCategory := FileCategory.Documents }]).ok = true ∧
    lookupFs (handleOrganize [("a/x", "A"), ("b/x", "B")]
      [{ name := "x", path := "a/x", size := 1,
         suggestedCategory := FileCategory.Documents },
       { name := "x", path := "b/x", size := 1,
         suggestedCategory := FileCategory.Documents }]).state "Documents/x" = some "B" ∧
    lookupFs (handleOrganize [("a/x", "A"), ("b/x", "B")]
      [{ name := "x", path := "a/x", size := 1,
         suggestedCategory := FileCategory.Documents },
       { name := "x", path := "b/x", size := 1,
         suggestedCategory := FileCategory.Documents }]).state "a/x" = none ∧
    lookupFs (handleOrganize [("a/x", "A"), ("b/x", "B")]
      [{ name := "x", path := "a/x", size := 1,
         suggestedCategory := FileCategory.Documents },
       { name := "x", path := "b/x", size := 1,
         suggestedCategory := FileCategory.Documents }]).state "b/x" = none ∧
    (((handleOrganize [("a/x", "A"), ("b/x", "B")]
      [{ name := "x", path := "a/x", size := 1,
         suggestedCategory := FileCategory.Documents },
       { name := "x", path := "b/x", size := 1,
         suggestedCategory := FileCategory.Documents }]).state.map Prod.snd).contains "A")
      = false := by
  decide

/-- C10: resolveDuplicates deletes by bare name on the scan root only. For a
marked duplicate living in a subdirectory the removeEntry fails, the failure is
swallowed, the disk is left unchanged with the nested file still present, yet
the file disappears from the in-memory file list. -/
theorem resolveDuplicates_nested_leaves_disk :
    resolveDuplicates [("sub/x.txt", "C")]
        [{ name := "x.txt", path := "sub/x.txt", size := 3 }] ["x.txt"]
      = ([("sub/x.txt", "C")], []) ∧
    lookupFs [("sub/x.txt", "C")] "sub/x.txt" = some "C" := by
  decide

/-! Event ordering: a delete is only ever observed after the matching write and
close. -/

theorem getElem?_some_mem {α : Type _} {l : List α} {i : Nat} {a : α}
    (h : l[i]? = some a) : a ∈ l := by
  induction l generalizing i with
  | nil => simp at h
  | cons b rest ih =>
    cases i with
    | zero =>
      simp at h
      simp [h]
    | succ n =>
      simp only [List.getElem?_cons_succ] at h
      exact List.mem_cons_of_mem b (ih h)

/-- Every delete event of an organize pass targets the source path of one of
the processed records. -/
theorem organize_delete_mem (fs : List FileMetadata) : ∀ (s : FsState) (p : String),
    FsEvent.delete p ∈ (handleOrganize s fs).events →
    ∃ h ∈ activeFiles fs, srcTarget h = p := by
  induction fs with
  | nil =>
    intro s p hmem
    simp [handleOrganize] at hmem
  | cons g rest ih =>
    intro s p hmem
    by_cases hg : skippedByOrganize g = true
    · rw [handleOrganize_cons_skip s g rest hg] at hmem
      obtain ⟨h, hh, hp⟩ := ih s p hmem
      exact ⟨h, by rw [activeFiles_cons_skip g rest hg]; exact hh, hp⟩
    · have hg' : skippedByOrganize g = false := by
        revert hg
        cases skippedByOrganize g <;> simp
      rw [activeFiles_cons_active g rest hg']
      cases hc : lookupFs s g.path with
      | none =>
        rw [handleOrganize_cons_readfail s g rest hg' hc] at hmem
        simp at hmem
      | some c =>
        cases hc2 : lookupFs (writeFs s (destPath g) c) (srcTarget g) with
        | none =>
          rw [handleOrganize_cons_removefail s g rest hg' c hc hc2] at hmem
          simp at hmem
          exact ⟨g, List.mem_cons_self g _, hmem.symm⟩
        | some d =>
          rw [handleOrganize_cons_full s g rest hg' c hc d hc2] at hmem
          simp only [List.cons_append, List.nil_append, List.mem_cons] at hmem
          rcases hmem with h1 | h2 | h3 | h4
          · exact absurd h1 (by simp)
          · exact absurd h2 (by simp)
          · simp only [FsEvent.delete.injEq] at h3
            exact ⟨g, List.mem_cons_self g _, h3.symm⟩
          · obtain ⟨h, hh, hp⟩ := ih (eraseFs (writeFs s (destPath g) c) (srcTarget g)) p h4
            exact ⟨h, List.mem_cons_of_mem g hh, hp⟩

/-- Organize half of the ordering property: any observed delete of the source
entry of a processed record is preceded by the write of that record's whole
content into its destination and by the close of that destination. -/
theorem organize_delete_ordered (fs : List FileMetadata) :
    ∀ (s : FsState) (f : FileMetadata) (i : Nat),
    ((activeFiles fs).map srcTarget).Nodup → f ∈ fs → skippedByOrganize f = false →
    (handleOrganize s fs).events[i]? = some (FsEvent.delete (srcTarget f)) →
    ∃ j k c, j < k ∧ k < i ∧
      (handleOrganize s fs).events[j]? = some (FsEvent.write (destPath f) c) ∧
      (handleOrganize s fs).events[k]? = some (FsEvent.close (destPath f)) := by
  induction fs with
  | nil =>
    intro s f i _ hf _ _
    simp at hf
  | cons g rest ih =>
    intro s f i hnd hf hskip hi
    by_cases hg : skippedByOrganize g = true
    · rw [handleOrganize_cons_skip s g rest hg] at hi ⊢
      rw [activeFiles_cons_skip g rest hg] at hnd
      rcases List.mem_cons.mp hf with rfl | hf'
      · rw [hskip] at hg
        exact absurd hg (by simp)
      · exact ih s f i hnd hf' hskip hi
    · have hg' : skippedByOrganize g = false := by
        revert hg
        cases skippedByOrganize g <;> simp
      rw [activeFiles_cons_active g rest hg', List.map_cons, List.nodup_cons] at hnd
      have hsrcne : ∀ h ∈ rest, skippedByOrganize h = false → srcTarget g ≠ srcTarget h := by
        intro h hh hsk heq
        refine hnd.1 (heq ▸ List.mem_map_of_mem srcTarget ?_)
        rw [activeFiles]
        rw [List.mem_filter]
        exact ⟨hh, by simp [hsk]⟩
      cases hc : lookupFs s g.path with
      | none =>
        rw [handleOrganize_cons_readfail s g rest hg' hc] at hi
        simp at hi
      | some c =>
        cases hc2 : lookupFs (writeFs s (destPath g) c) (srcTarget g) with
        | none =>
          rw [handleOrganize_cons_removefail s g rest hg' c hc hc2] at hi ⊢
          rcases i with _ | _ | _ | n
          · simp at hi
          · simp at hi
          · simp only [List.getElem?_cons_succ, List.getElem?_cons_zero,
              Option.some.injEq] at hi
            rcases List.mem_cons.mp hf with rfl | hf'
            · exact ⟨0, 1, c, by omega, by omega, rfl, rfl⟩
            · exact absurd (FsEvent.delete.inj hi) (hsrcne f hf' hskip)
          · simp [List.getElem?_cons_succ] at hi
        | some d =>
          rw [handleOrganize_cons_full s g rest hg' c hc d hc2] at hi ⊢
          simp only [List.cons_append, List.nil_append] at hi ⊢
          rcases i with _ | _ | _ | n
          · simp at hi
          · simp at hi
          · simp only [List.getElem?_cons_succ, List.getElem?_cons_zero,
              Option.some.injEq] at hi
            rcases List.mem_cons.mp hf with rfl | hf'
            · exact ⟨0, 1, c, by omega, by omega, rfl, rfl⟩
            · exact absurd (FsEvent.delete.inj hi) (hsrcne f hf' hskip)
          · simp only [List.getElem?_cons_succ] at hi
            rcases List.mem_cons.mp hf with rfl | hf'
            · exfalso
              obtain ⟨h, hh, hp⟩ := organize_delete_mem rest
                (eraseFs (writeFs s (destPath f) c) (srcTarget f)) (srcTarget f)
                (getElem?_some_mem hi)
              have hh' : h ∈ rest := List.mem_of_mem_filter hh
              have hsk : skippedByOrganize h = false := by
                have := (List.mem_filter.mp hh).2
                revert this
                cases skippedByOrganize h <;> simp
              exact hsrcne h hh' hsk hp.symm
            · obtain ⟨j, k, c', hjk, hki, hw, hcl⟩ := ih
                (eraseFs (writeFs s (destPath g) c) (srcTarget g)) f n hnd.2 hf' hskip hi
              exact ⟨j + 3, k + 3, c', by omega, by omega,
                by simp only [List.getElem?_cons_succ]; exact hw,
                by simp only [List.getElem?_cons_succ]; exact hcl⟩

theorem handleUndo_cons_readfail (s : FsState) (r : UndoRecord) (rest : List UndoRecord)
    (hc : lookupFs s (catSrc r) = none) : handleUndo s (r :: rest) = ⟨s, [], false⟩ := by
  simp only [handleUndo, hc]

/-- Every delete event of an undo pass targets the organized copy of one of the
records. -/
theorem undo_delete_mem (hist : List UndoRecord) : ∀ (s : FsState) (p : String),
    FsEvent.delete p ∈ (handleUndo s hist).events → ∃ r ∈ hist, catSrc r = p := by
  induction hist with
  | nil =>
    intro s p hmem
    simp [handleUndo] at hmem
  | cons r rest ih =>
    intro s p hmem
    cases hc : lookupFs s (catSrc r) with
    | none =>
      rw [handleUndo_cons_readfail s r rest hc] at hmem
      simp at hmem
    | some c =>
      rw [handleUndo_cons s r rest c hc] at hmem
      simp only [List.cons_append, List.nil_append, List.mem_cons] at hmem
      rcases hmem with h1 | h2 | h3 | h4
      · exact absurd h1 (by simp)
      · exact absurd h2 (by simp)
      · simp only [FsEvent.delete.injEq] at h3
        exact ⟨r, List.mem_cons_self r _, h3.symm⟩
      · obtain ⟨q, hq, hp⟩ := ih (eraseFs (writeFs s (undoDst r) c) (catSrc r)) p h4
        exact ⟨q, List.mem_cons_of_mem r hq, hp⟩

/-- Undo half of the ordering property: any observed delete of the organized
copy of a record is preceded by the write of its whole content at the restore
target and by the close of that target. -/
theorem undo_delete_ordered (hist : List UndoRecord) :
    ∀ (s : FsState) (r : UndoRecord) (i : Nat),
    (hist.map catSrc).Nodup → r ∈ hist →
    (handleUndo s hist).events[i]? = some (FsEvent.delete (catSrc r)) →
    ∃ j k c, j < k ∧ k < i ∧
      (handleUndo s hist).events[j]? = some (FsEvent.write (undoDst r) c) ∧
      (handleUndo s hist).events[k]? = some (FsEvent.close (undoDst r)) := by
  induction hist with
  | nil =>
    intro s r i _ hr _
    simp at hr
  | cons q rest ih =>
    intro s r i hnd hr hi
    rw [List.map_cons, List.nodup_cons] at hnd
    have hne : ∀ a ∈ rest, catSrc q ≠ catSrc a := fun a ha heq =>
      hnd.1 (heq ▸ List.mem_map_of_mem catSrc ha)
    cases hc : lookupFs s (catSrc q) with
    | none =>
      rw [handleUndo_cons_readfail s q rest hc] at hi
      simp at hi
    | some c =>
      rw [handleUndo_cons s q rest c hc] at hi ⊢
      simp only [List.cons_append, List.nil_append] at hi ⊢
      rcases i with _ | _ | _ | n
      · simp at hi
      · simp at hi
      · simp only [List.getElem?_cons_succ, List.getElem?_cons_zero,
          Option.some.injEq] at hi
        rcases List.mem_cons.mp hr with rfl | hr'
        · exact ⟨0, 1, c, by omega, by omega, rfl, rfl⟩
        · exact absurd (FsEvent.delete.inj hi) (hne r hr')
      · simp only [List.getElem?_cons_succ] at hi
        rcases List.mem_cons.mp hr with rfl | hr'
        · exfalso
          obtain ⟨a, ha, hp⟩ := undo_delete_mem rest
            (eraseFs (writeFs s (undoDst r) c) (catSrc r)) (catSrc r)
            (getElem?_some_mem hi)
          exact hne a ha hp.symm
        · obtain ⟨j, k, c', hjk, hki, hw, hcl⟩ := ih
            (eraseFs (writeFs s (undoDst q) c) (catSrc q)) r n hnd.2 hr' hi
          exact ⟨j + 3, k + 3, c', by omega, by omega,
            by simp only [List.getElem?_cons_succ]; exact hw,
            by simp only [List.getElem?_cons_succ]; exact hcl⟩

/-- C1: in both handleOrganize and handleUndo, for every processed file whose
source (respectively organized) entries are unambiguous, the removeEntry call
on that entry is observed in the event trace only after the write of the whole
file content at the destination and the close of the writable stream, at
strictly earlier trace positions. -/
theorem delete_only_after_write_and_close :
    (∀ (s : FsState) (fs : List FileMetadata) (f : FileMetadata) (i : Nat),
      ((activeFiles fs).map srcTarget).Nodup → f ∈ fs → skippedByOrganize f = false →
      (handleOrganize s fs).events[i]? = some (FsEvent.delete (srcTarget f)) →
      ∃ j k c, j < k ∧ k < i ∧
        (handleOrganize s fs).events[j]? = some (FsEvent.write (destPath f) c) ∧
        (handleOrganize s fs).events[k]? = some (FsEvent.close (destPath f))) ∧
    (∀ (s : FsState) (hist : List UndoRecord) (r : UndoRecord) (i : Nat),
      (hist.map catSrc).Nodup → r ∈ hist →
      (handleUndo s hist).events[i]? = some (FsEvent.delete (catSrc r)) →
      ∃ j k c, j < k ∧ k < i ∧
        (handleUndo s hist).events[j]? = some (FsEvent.write (undoDst r) c) ∧
        (handleUndo s hist).events[k]? = some (FsEvent.close (undoDst r))) :=
  ⟨fun s fs f i hnd hf hsk hi => organize_delete_ordered fs s f i hnd hf hsk hi,
   fun s hist r i hnd hr hi => undo_delete_ordered hist s r i hnd hr hi⟩

/-- Witness for C1 at concrete one-file passes: the delete observed at trace
position two is preceded by the write and the close of the destination. -/
theorem delete_only_after_write_and_close_witness :
    (∃ j k c, j < k ∧ k < 2 ∧
      (handleOrganize [("a", "A")]
        [{ name := "a", path := "a", size := 1,
           suggestedCategory := FileCategory.Documents }]).events[j]?
        = some (FsEvent.write
            (destPath { name := "a", path := "a", size := 1,
                        suggestedCategory := FileCategory.Documents }) c) ∧
      (handleOrganize [("a", "A")]
        [{ name := "a", path := "a", size := 1,
           suggestedCategory := FileCategory.Documents }]).events[k]?
        = some (FsEvent.close
            (destPath { name := "a", path := "a", size := 1,
                        suggestedCategory := FileCategory.Documents }))) ∧
    (∃ j k c, j < k ∧ k < 2 ∧
      (handleUndo [("Documents/a", "A")]
        [{ fileName := "a", originalRelativePath := "a",
           category := FileCategory.Documents }]).events[j]?
        = some (FsEvent.write
            (undoDst { fileName := "a", originalRelativePath := "a",
                       category := FileCategory.Documents }) c) ∧
      (handleUndo [("Documents/a", "A")]
        [{ fileName := "a", originalRelativePath := "a",
           category := FileCategory.Documents }]).events[k]?
        = some (FsEvent.close
            (undoDst { fileName := "a", originalRelativePath := "a",
                       category := FileCategory.Documents }))) :=
  ⟨delete_only_after_write_and_close.1 [("a", "A")]
      [{ name := "a", path := "a", size := 1,
         suggestedCategory := FileCategory.Documents }]
      { name := "a", path := "a", size := 1,
        suggestedCategory := FileCategory.Documents } 2
      (by decide) (by decide) (by decide) (by decide),
   delete_only_after_write_and_close.2 [("Documents/a", "A")]
      [{ fileName := "a", originalRelativePath := "a",
         category := FileCategory.Documents }]
      { fileName := "a", originalRelativePath := "a",
        category := FileCategory.Documents } 2
      (by decide) (by decide) (by decide)⟩

/-! Classifier service analysis. -/

@[simp]
theorem getRec_filter_ne (m : CatRecord) (k x : String) :
    getRec (m.filter (fun kv => kv.1 != k)) x = if x = k then none else getRec m x := by
  induction m with
  | nil => simp [getRec]
  | cons kv rest ih =>
    simp only [List.filter_cons] at ih ⊢
    by_cases h1 : kv.1 = k
    · simp only [h1, bne_self_eq_false, Bool.false_eq_true, if_false, ih, getRec]
      by_cases h2 : x = k
      · simp [h2]
      · have h3 : ¬ k = x := fun h => h2 h.symm
        simp [h2, h3]
    · have hb : (kv.1 != k) = true := by simpa using h1
      simp only [hb, if_true, getRec, ih]
      by_cases h2 : kv.1 = x
      · have : ¬ x = k := fun h => h1 (h ▸ h2)
        simp [h2, this]
      · simp [h2]

@[simp]
theorem getRec_setRec (m : CatRecord) (k : String) (v : FileCategory) (x : String) :
    getRec (setRec m k v) x = if x = k then some v else getRec m x := by
  simp only [setRec, getRec, getRec_filter_ne]
  by_cases h : k = x
  · simp [h]
  · have h2 : ¬ x = k := fun hx => h hx.symm
    simp [h, h2]

theorem getRec_fallbackAux (names : List String) : ∀ (m : CatRecord) (x : String),
    getRec (fallbackAux names m) x
      = if x ∈ names then some (fallbackFor x) else getRec m x := by
  induction names with
  | nil =>
    intro m x
    simp [fallbackAux]
  | cons n rest ih =>
    intro m x
    show getRec (fallbackAux rest (setRec m n (fallbackFor n))) x = _
    rw [ih]
    by_cases hr : x ∈ rest
    · simp [hr, List.mem_cons]
    · by_cases hn : x = n
      · simp [hr, hn, getRec_setRec, List.mem_cons]
      · simp [hr, hn, getRec_setRec, List.mem_cons]

theorem getRec_buildParsed_none (items : List (String × FileCategory)) :
    ∀ (m : CatRecord) (x : String), (∀ it ∈ items, it.1 ≠ x) →
    getRec (buildParsed items m) x = getRec m x := by
  induction items with
  | nil =>
    intro m x _
    rfl
  | cons it rest ih =>
    intro m x hmiss
    show getRec (buildParsed rest (setRec m it.1 it.2)) x = _
    rw [ih (setRec m it.1 it.2) x (fun a ha => hmiss a (List.mem_cons_of_mem it ha))]
    have h1 : ¬ x = it.1 := fun h => hmiss it (List.mem_cons_self it rest) h.symm
    simp [h1]

theorem getRec_fillMissing (names : List String) : ∀ (m : CatRecord) (x : String),
    getRec (fillMissing names m) x =
      match getRec m x with
      | some v => some v
      | none => if x ∈ names then some (fallbackFor x) else none := by
  induction names with
  | nil =>
    intro m x
    cases h : getRec m x <;> simp [fillMissing, h]
  | cons n rest ih =>
    intro m x
    show getRec (fillMissing rest
      (if (getRec m n).isSome then m else setRec m n (fallbackFor n))) x = _
    by_cases hm : (getRec m n).isSome
    · rw [if_pos hm, ih m x]
      cases h : getRec m x with
      | some v => rfl
      | none =>
        by_cases hx : x = n
        · exfalso
          rw [← hx, h] at hm
          simp at hm
        · simp [List.mem_cons, hx]
    · rw [if_neg hm, ih (setRec m n (fallbackFor n)) x]
      have hmn : getRec m n = none := Option.not_isSome_iff_eq_none.mp hm
      by_cases hx : x = n
      · subst hx
        rw [hmn]
        simp [getRec_setRec, List.mem_cons]
      · rw [getRec_setRec]
        simp only [hx, if_false]
        cases h : getRec m x with
        | some v => rfl
        | none => simp [List.mem_cons, hx]

/-- C4: categorizeFiles assigns a category to every requested name under each
remote outcome (the function is total, so no outcome raises); under a hard
remote failure every name gets its local extension-table category, and under a
partial parsed response every name absent from the response items gets its
local extension-table category (possibly Unknown for an unrecognized
extension). -/
theorem categorizeFiles_total :
    (∀ (fileNames : List String) (outcome : RemoteOutcome) (n : String), n ∈ fileNames →
      (getRec (categorizeFiles fileNames outcome) n).isSome) ∧
    (∀ (fileNames : List String) (n : String), n ∈ fileNames →
      getRec (categorizeFiles fileNames RemoteOutcome.err) n = some (fallbackFor n)) ∧
    (∀ (fileNames : List String) (items : List (String × FileCategory)) (n : String),
      n ∈ fileNames → (∀ it ∈ items, it.1 ≠ n) →
      getRec (categorizeFiles fileNames (RemoteOutcome.parsed items)) n
        = some (fallbackFor n)) := by
  refine ⟨?_, ?_, ?_⟩
  · intro fileNames outcome n hn
    cases outcome with
    | err =>
      simp [categorizeFiles, fallbackCategorization, getRec_fallbackAux, hn]
    | noText =>
      simp [categorizeFiles, fallbackCategorization, getRec_fallbackAux, hn]
    | parseFail =>
      rw [categorizeFiles, getRec_fillMissing]
      simp [getRec, hn]
    | parsed items =>
      rw [categorizeFiles, getRec_fillMissing]
      cases h : getRec (buildParsed items []) n with
      | some v => simp
      | none => simp [hn]
  · intro fileNames n hn
    simp [categorizeFiles, fallbackCategorization, getRec_fallbackAux, hn]
  · intro fileNames items n hn hmiss
    rw [categorizeFiles, getRec_fillMissing, getRec_buildParsed_none items [] n hmiss]
    simp [getRec, hn]

/-- Witness for C4 at concrete inputs: a dotless name still gets a category
under a parse failure, a hard failure falls back to the extension table, and a
name missing from a partial parsed response falls back likewise. -/
theorem categorizeFiles_total_witness :
    (getRec (categorizeFiles ["a.pdf", "b"] RemoteOutcome.parseFail) "b").isSome ∧
    getRec (categorizeFiles ["a.pdf", "b"] RemoteOutcome.err) "a.pdf"
      = some (fallbackFor "a.pdf") ∧
    getRec (categorizeFiles ["a.pdf", "c.zip"]
        (RemoteOutcome.parsed [("a.pdf", FileCategory.Code)])) "c.zip"
      = some (fallbackFor "c.zip") :=
  ⟨categorizeFiles_total.1 ["a.pdf", "b"] RemoteOutcome.parseFail "b" (by decide),
   categorizeFiles_total.2.1 ["a.pdf", "b"] "a.pdf" (by decide),
   categorizeFiles_total.2.2 ["a.pdf", "c.zip"] [("a.pdf", FileCategory.Code)] "c.zip"
     (by decide) (by decide)⟩

/-! Duplicate grouping analysis. -/

/-- A record list with pairwise distinct sizes has no bucket of more than one
record. -/
theorem bucket_length_le_one (files : List FileMetadata) (sz : Nat) :
    (files.map (fun f => f.size)).Nodup → (sizeBucket files sz).length ≤ 1 := by
  induction files with
  | nil =>
    intro _
    simp [sizeBucket]
  | cons f rest ih =>
    intro hnd
    simp only [List.map_cons, List.nodup_cons] at hnd
    rw [sizeBucket, List.filter_cons]
    by_cases h : f.size = sz
    · have hempty : rest.filter (fun g => g.size == sz) = [] := by
        rw [List.filter_eq_nil_iff]
        intro g hg hgsz
        refine hnd.1 ?_
        have : g.size = sz := by simpa using hgsz
        rw [h, ← this]
        exact List.mem_map_of_mem (fun f => f.size) hg
      simp [h, sizeBucket, hempty]
    · have hb : (f.size == sz) = false := by simpa using h
      simp only [hb, Bool.false_eq_true, if_false]
      exact ih hnd.2

/-- The ids of the produced groups are exactly group-size for the sizes whose
bucket holds more than one record, in enumeration order. -/
theorem duplicateGroupsOf_map_id (files : List FileMetadata) (l : List Nat) :
    ((l.filterMap (fun sz =>
        if 1 < (sizeBucket files sz).length
        then some (⟨"group-" ++ toString sz, sizeBucket files sz, false⟩ : DuplicateGroup)
        else none)).map (fun g => g.id))
      = (l.filter (fun sz => decide (1 < (sizeBucket files sz).length))).map
          (fun sz => "group-" ++ toString sz) := by
  induction l with
  | nil => rfl
  | cons a l ih =>
    by_cases h : 1 < (sizeBucket files a).length <;>
      simp [List.filterMap_cons, List.filter_cons, h, ih]

/-- Membership inversion for the produced groups. -/
theorem mem_duplicateGroupsOf (files : List FileMetadata) (g : DuplicateGroup)
    (hg : g ∈ duplicateGroupsOf files) :
    ∃ sz, 1 < (sizeBucket files sz).length ∧
      g = ⟨"group-" ++ toString sz, sizeBucket files sz, false⟩ := by
  obtain ⟨sz, _, hfn⟩ := List.mem_filterMap.mp hg
  by_cases h : 1 < (sizeBucket files sz).length
  · rw [if_pos h] at hfn
    exact ⟨sz, h, (Option.some.inj hfn).symm⟩
  · rw [if_neg h] at hfn
    exact Option.noConfusion hfn

/-- C5: duplicate grouping partitions the scanned records by exact size; one
group with id group-size per bucket of more than one record (in enumeration
order of the size keys), every group holding at least two records whose sizes
all match the id; records of such buckets are flagged as duplicates with the
group id, records of singleton buckets are left untouched; and a list of
pairwise distinct sizes yields no group at all. -/
theorem duplicate_grouping_spec :
    (∀ files : List FileMetadata,
      (duplicateGroupsOf files).map (fun g => g.id)
        = ((sortedSizes files).filter
            (fun sz => decide (1 < (sizeBucket files sz).length))).map
            (fun sz => "group-" ++ toString sz)) ∧
    (∀ files : List FileMetadata, ∀ g ∈ duplicateGroupsOf files, 2 ≤ g.files.length) ∧
    (∀ files : List FileMetadata, ∀ g ∈ duplicateGroupsOf files, ∀ x ∈ g.files,
      g.id = "group-" ++ toString x.size) ∧
    (∀ (files : List FileMetadata) (f : FileMetadata),
      1 < (sizeBucket files f.size).length →
      markDuplicate files f
        = { f with isDuplicate := true,
                   duplicateGroupId := some ("group-" ++ toString f.size) }) ∧
    (∀ (files : List FileMetadata) (f : FileMetadata),
      ¬ 1 < (sizeBucket files f.size).length → markDuplicate files f = f) ∧
    (∀ files : List FileMetadata,
      (files.map (fun f => f.size)).Nodup → duplicateGroupsOf files = []) := by
  refine ⟨?_, ?_, ?_, ?_, ?_, ?_⟩
  · intro files
    exact duplicateGroupsOf_map_id files (sortedSizes files)
  · intro files g hg
    obtain ⟨sz, hlen, rfl⟩ := mem_duplicateGroupsOf files g hg
    simpa using hlen
  · intro files g hg x hx
    obtain ⟨sz, hlen, rfl⟩ := mem_duplicateGroupsOf files g hg
    simp only [sizeBucket] at hx
    have : x.size = sz := by simpa using (List.mem_filter.mp hx).2
    rw [this]
  · intro files f h
    rw [markDuplicate, if_pos h]
  · intro files f h
    rw [markDuplicate, if_neg h]
  · intro files hnd
    rw [duplicateGroupsOf, List.filterMap_eq_nil_iff]
    intro sz _
    rw [if_neg]
    intro hlt
    exact absurd (bucket_length_le_one files sz hnd) (by omega)

/-- Witness for C5 at a concrete scan: two records of size 100 and one of size
50 yield one group of two same-size members, its id derived from the size, the
members flagged, the singleton untouched; all-distinct sizes yield no group. -/
theorem duplicate_grouping_spec_witness :
    2 ≤ (DuplicateGroup.mk "group-100"
      [{ name := "p", path := "p", size := 100 },
       { name := "q", path := "d/q", size := 100 }] false).files.length ∧
    markDuplicate
        [{ name := "p", path := "p", size := 100 },
         { name := "r", path := "r", size := 50 },
         { name := "q", path := "d/q", size := 100 }]
        { name := "r", path := "r", size := 50 }
      = { name := "r", path := "r", size := 50 } ∧
    duplicateGroupsOf
        [{ name := "p", path := "p", size := 100 },
         { name := "r", path := "r", size := 50 }] = [] :=
  ⟨duplicate_grouping_spec.2.1
      [{ name := "p", path := "p", size := 100 },
       { name := "r", path := "r", size := 50 },
       { name := "q", path := "d/q", size := 100 }] _ (by decide),
   duplicate_grouping_spec.2.2.2.2.1
      [{ name := "p", path := "p", size := 100 },
       { name := "r", path := "r", size := 50 },
       { name := "q", path := "d/q", size := 100 }]
      { name := "r", path := "r", size := 50 } (by decide),
   duplicate_grouping_spec.2.2.2.2.2
      [{ name := "p", path := "p", size := 100 },
       { name := "r", path := "r", size := 50 }] (by decide)⟩

/-! Custom rule analysis. -/

theorem startsWithList_iff (needle : List Char) : ∀ hay : List Char,
    startsWithList hay needle = true ↔ ∃ t, hay = needle ++ t := by
  induction needle with
  | nil =>
    intro hay
    simp only [startsWithList, List.nil_append]
    exact ⟨fun _ => ⟨hay, rfl⟩, fun _ => trivial⟩
  | cons b bs ih =>
    intro hay
    cases hay with
    | nil =>
      simp [startsWithList]
    | cons a as =>
      simp only [startsWithList, Bool.and_eq_true, decide_eq_true_eq, ih as,
        List.cons_append, List.cons.injEq]
      constructor
      · rintro ⟨hab, t, ht⟩
        exact ⟨t, hab, ht⟩
      · rintro ⟨t, hab, ht⟩
        exact ⟨hab, t, ht⟩

theorem includesList_iff (needle : List Char) : ∀ hay : List Char,
    includesList hay needle = true ↔ ∃ pre post, hay = pre ++ needle ++ post := by
  intro hay
  induction hay with
  | nil =>
    simp only [includesList, List.isEmpty_iff]
    constructor
    · intro h
      exact ⟨[], [], by simp [h]⟩
    · rintro ⟨pre, post, h⟩
      rcases List.append_eq_nil.mp (List.append_eq_nil.mp h.symm).1 with ⟨_, h2⟩
      exact h2
  | cons c rest ih =>
    simp only [includesList, Bool.or_eq_true, startsWithList_iff needle, ih]
    constructor
    · rintro (⟨t, ht⟩ | ⟨pre, post, hp⟩)
      · exact ⟨[], t, by simp [ht]⟩
      · exact ⟨c :: pre, post, by simp [hp]⟩
    · rintro ⟨pre, post, hp⟩
      cases pre with
      | nil =>
        left
        exact ⟨post, by simpa using hp⟩
      | cons x xs =>
        right
        simp only [List.cons_append, List.cons.injEq] at hp
        exact ⟨xs, post, hp.2⟩

/-- C6 (amended): applyCustomRules tries keyword rules before extension rules;
a file matching any keyword rule gets the category of the first matching
keyword rule whatever extension rules would say; keyword rules match when the
lower-cased pattern is a substring of the lower-cased file name; extension
rules compare the lower-cased extension for exact equality against the pattern
with its first dot (wherever it occurs) removed and lower-cased; when no
keyword rule matches, the first matching extension rule wins; and with no
matching rule at all the result is null, leaving the category Unknown before
the classifier pass. -/
theorem applyCustomRules_precedence :
    (∀ (rules : List CustomRule) (fileName ext : String),
      (∃ r ∈ rules, r.type = RuleType.keyword ∧ kwRuleMatches fileName r = true) →
      ∃ r0, (rules.filter (fun r => r.type == RuleType.keyword)).find?
          (kwRuleMatches fileName) = some r0 ∧
        r0.type = RuleType.keyword ∧ kwRuleMatches fileName r0 = true ∧
        applyCustomRules rules fileName ext = some r0.category) ∧
    (∀ (fileName : String) (r : CustomRule),
      kwRuleMatches fileName r = true ↔
        ∃ pre post, (toLowerStr fileName).data
          = pre ++ (toLowerStr r.pattern).data ++ post) ∧
    (∀ (ext : String) (r : CustomRule),
      extRuleMatches ext r = true ↔
        toLowerStr ext = toLowerStr (removeFirstDot r.pattern)) ∧
    (∀ (rules : List CustomRule) (fileName ext : String),
      (∀ r ∈ rules, r.type = RuleType.keyword → kwRuleMatches fileName r = false) →
      (∃ r ∈ rules, r.type = RuleType.extension ∧ extRuleMatches ext r = true) →
      ∃ r0, (rules.filter (fun r => r.type == RuleType.extension)).find?
          (extRuleMatches ext) = some r0 ∧
        applyCustomRules rules fileName ext = some r0.category) ∧
    (∀ (rules : List CustomRule) (fileName ext : String),
      (∀ r ∈ rules, r.type = RuleType.keyword → kwRuleMatches fileName r = false) →
      (∀ r ∈ rules, r.type = RuleType.extension → extRuleMatches ext r = false) →
      applyCustomRules rules fileName ext = none) := by
  have hkwnone : ∀ (rules : List CustomRule) (fileName : String),
      (∀ r ∈ rules, r.type = RuleType.keyword → kwRuleMatches fileName r = false) →
      (rules.filter (fun r => r.type == RuleType.keyword)).find?
        (kwRuleMatches fileName) = none := by
    intro rules fileName hnone
    rw [List.find?_eq_none]
    intro r hr
    obtain ⟨hmem, htype⟩ := List.mem_filter.mp hr
    rw [hnone r hmem (by simpa using htype)]
    simp
  refine ⟨?_, ?_, ?_, ?_, ?_⟩
  · intro rules fileName ext hex
    obtain ⟨r, hr, htype, hmatch⟩ := hex
    have hsome : ((rules.filter (fun r => r.type == RuleType.keyword)).find?
        (kwRuleMatches fileName)).isSome := by
      rw [List.find?_isSome]
      exact ⟨r, List.mem_filter.mpr ⟨hr, by simp [htype]⟩, hmatch⟩
    obtain ⟨r0, hr0⟩ := Option.isSome_iff_exists.mp hsome
    have hr0mem := List.mem_filter.mp (List.mem_of_find?_eq_some hr0)
    refine ⟨r0, hr0, by simpa using hr0mem.2, List.find?_some hr0, ?_⟩
    simp only [applyCustomRules, hr0]
  · intro fileName r
    exact includesList_iff (toLowerStr r.pattern).data (toLowerStr fileName).data
  · intro ext r
    simp [extRuleMatches]
  · intro rules fileName ext hnone hex
    obtain ⟨r, hr, htype, hmatch⟩ := hex
    have hsome : ((rules.filter (fun r => r.type == RuleType.extension)).find?
        (extRuleMatches ext)).isSome := by
      rw [List.find?_isSome]
      exact ⟨r, List.mem_filter.mpr ⟨hr, by simp [htype]⟩, hmatch⟩
    obtain ⟨r0, hr0⟩ := Option.isSome_iff_exists.mp hsome
    refine ⟨r0, hr0, ?_⟩
    simp only [applyCustomRules, hkwnone rules fileName hnone, hr0]
  · intro rules fileName ext hkw hext
    have hextnone : (rules.filter (fun r => r.type == RuleType.extension)).find?
        (extRuleMatches ext) = none := by
      rw [List.find?_eq_none]
      intro r hr
      obtain ⟨hmem, htype⟩ := List.mem_filter.mp hr
      rw [hext r hmem (by simpa using htype)]
      simp
    simp only [applyCustomRules, hkwnone rules fileName hkw, hextnone]

/-- Witness for C6 at concrete rules: a file matching both a keyword rule and
an extension rule gets the keyword category, and the substring and exact-match
readings hold on concrete patterns. -/
theorem applyCustomRules_precedence_witness :
    (∃ r0, ([⟨"2", RuleType.extension, ".EXE", FileCategory.Installers⟩,
        ⟨"1", RuleType.keyword, "Contract", FileCategory.Documents⟩].filter
          (fun r => r.type == RuleType.keyword)).find?
          (kwRuleMatches "My_contract_setup.exe") = some r0 ∧
      r0.type = RuleType.keyword ∧ kwRuleMatches "My_contract_setup.exe" r0 = true ∧
      applyCustomRules
          [⟨"2", RuleType.extension, ".EXE", FileCategory.Installers⟩,
           ⟨"1", RuleType.keyword, "Contract", FileCategory.Documents⟩]
          "My_contract_setup.exe" "exe" = some r0.category) ∧
    applyCustomRules [⟨"2", RuleType.extension, ".EXE", FileCategory.Installers⟩]
      "setup.exe" "exe" = some FileCategory.Installers :=
  ⟨applyCustomRules_precedence.1
      [⟨"2", RuleType.extension, ".EXE", FileCategory.Installers⟩,
       ⟨"1", RuleType.keyword, "Contract", FileCategory.Documents⟩]
      "My_contract_setup.exe" "exe"
      ⟨⟨"1", RuleType.keyword, "Contract", FileCategory.Documents⟩,
        by decide, by decide, by decide⟩,
   by decide⟩

/-- Counterexample to C6 as stated: the extension rule pattern a.b has no
leading dot, so under the claimed normalization (lower-case, strip a leading
dot) it reads a.b and cannot equal the extension ab; yet the code removes the
first dot wherever it occurs and the rule does match a file with extension ab. -/
theorem applyCustomRules_normalization_counterexample :
    applyCustomRules [⟨"3", RuleType.extension, "a.b", FileCategory.Documents⟩]
      "x.ab" "ab" = some FileCategory.Documents ∧
    (specExtNormalize "a.b" == "ab") = false := by
  decide

/-! Keep-one analysis. -/

/-- Membership after the keepOne loop body over a group file list: names of the
group end up in the deletion set exactly when they differ from the kept name,
and names outside the group keep their previous marking. Every occurrence of a
name performs the same action, so duplicate names need no special casing. -/
theorem keepOne_fold_mem (files : List FileMetadata) : ∀ (init : List String) (keep n : String),
    (n ∈ files.foldl (fun next f =>
        if f.name != keep then
          if next.contains f.name then next else f.name :: next
        else next.filter (fun m => m != f.name)) init)
      ↔ if n ∈ files.map (fun f => f.name) then n ≠ keep else n ∈ init := by
  induction files with
  | nil =>
    intro init keep n
    simp
  | cons f rest ih =>
    intro init keep n
    rw [List.foldl_cons, List.map_cons]
    rw [ih _ keep n]
    by_cases hr : n ∈ rest.map (fun f => f.name)
    · simp [hr, List.mem_cons]
    · simp only [hr, if_false]
      cases hrel : (f.name != keep) with
      | true =>
        have hfk : f.name ≠ keep := by simpa using hrel
        simp only [hrel, if_true]
        by_cases hn : n = f.name
        · by_cases hi : f.name ∈ init
          · have hib : init.contains f.name = true := List.elem_iff.mpr hi
            simp [hn, hi, hib, hfk, List.mem_cons]
          · have hib : init.contains f.name = false := by
              cases hc : init.contains f.name
              · rfl
              · exact absurd (List.elem_iff.mp hc) hi
            simp [hn, hi, hib, hfk, List.mem_cons]
        · by_cases hi : f.name ∈ init
          · have hib : init.contains f.name = true := List.elem_iff.mpr hi
            simp [hi, hib, List.mem_cons, hn, hr]
          · have hib : init.contains f.name = false := by
              cases hc : init.contains f.name
              · rfl
              · exact absurd (List.elem_iff.mp hc) hi
            simp [hi, hib, List.mem_cons, hn, hr]
      | false =>
        have hfk : f.name = keep := by simpa using hrel
        simp only [hrel, Bool.false_eq_true, if_false]
        by_cases hn : n = f.name
        · simp [List.mem_filter, List.mem_cons, hn, hfk]
        · have hiff : (n ∈ init.filter (fun m => m != f.name)) ↔ n ∈ init := by
            rw [List.mem_filter]
            simp [hn]
          rw [hiff]
          simp [List.mem_cons, hn, hr]

/-- With pairwise distinct names, the unique group member carrying a given name
is the member itself. -/
theorem filter_name_eq_of_nodup (files : List FileMetadata)
    (hnd : (files.map (fun f => f.name)).Nodup) (y : FileMetadata) (hy : y ∈ files) :
    files.filter (fun f => f.name == y.name) = [y] := by
  induction files with
  | nil => simp at hy
  | cons f rest ih =>
    simp only [List.map_cons, List.nodup_cons] at hnd
    rcases List.mem_cons.mp hy with heq | hy'
    · rw [List.filter_cons]
      have hself : (f.name == y.name) = true := by simp [heq]
      simp only [hself, if_true]
      have hempty : rest.filter (fun g => g.name == y.name) = [] := by
        rw [List.filter_eq_nil_iff]
        intro g hg hgn
        refine hnd.1 ?_
        have hgn2 : g.name = y.name := by simpa using hgn
        rw [heq] at hgn2
        rw [← hgn2]
        exact List.mem_map_of_mem (fun f => f.name) hg
      rw [hempty, heq]
    · rw [List.filter_cons]
      have hne : (f.name == y.name) = false := by
        cases hc : (f.name == y.name)
        · rfl
        · exfalso
          refine hnd.1 ?_
          have : f.name = y.name := by simpa using hc
          rw [this]
          exact List.mem_map_of_mem (fun f => f.name) hy'
      simp only [hne, Bool.false_eq_true, if_false]
      exact ih hnd.2 hy'

/-- C7 (amended): within a duplicate group whose member names are pairwise
distinct, marking file x as keep and then marking a different file y as keep
leaves exactly one member of the group unmarked for deletion, namely y, and the
previous keep target x is re-marked for deletion. Marks are tracked by bare
file name, so distinct members sharing a name are excluded. -/
theorem keepOne_switch_keep (groups : List DuplicateGroup) (g : DuplicateGroup)
    (init : List String) (x y : FileMetadata)
    (hfind : groups.find? (fun gr => gr.id == g.id) = some g)
    (hnd : (g.files.map (fun f => f.name)).Nodup)
    (hx : x ∈ g.files) (hy : y ∈ g.files) (hxy : x ≠ y) :
    g.files.filter (fun f =>
        !(keepOne groups (keepOne groups init g.id x.name) g.id y.name).contains f.name)
      = [y] ∧
    (keepOne groups (keepOne groups init g.id x.name) g.id y.name).contains x.name
      = true := by
  have hmem2 : ∀ n, n ∈ g.files.map (fun f => f.name) →
      ((n ∈ keepOne groups (keepOne groups init g.id x.name) g.id y.name) ↔ n ≠ y.name) := by
    intro n hn
    simp only [keepOne, hfind]
    rw [keepOne_fold_mem]
    simp [hn]
  have hxyname : x.name ≠ y.name := by
    intro h
    refine hxy ?_
    have h1 := filter_name_eq_of_nodup g.files hnd y hy
    have hx2 : x ∈ g.files.filter (fun f => f.name == y.name) := by
      rw [List.mem_filter]
      exact ⟨hx, by simp [h]⟩
    rw [h1] at hx2
    simpa using hx2
  constructor
  · have hpt : ∀ f ∈ g.files,
        (!(keepOne groups (keepOne groups init g.id x.name) g.id y.name).contains f.name)
          = (f.name == y.name) := by
      intro f hf
      have hfn : f.name ∈ g.files.map (fun f => f.name) :=
        List.mem_map_of_mem (fun f => f.name) hf
      by_cases h : f.name = y.name
      · have hcont : (keepOne groups (keepOne groups init g.id x.name) g.id
            y.name).contains f.name = false := by
          cases hc : (keepOne groups (keepOne groups init g.id x.name) g.id
            y.name).contains f.name
          · rfl
          · exact absurd ((hmem2 f.name hfn).mp (List.elem_iff.mp hc)) (by simp [h])
        rw [hcont]
        simp [h]
      · have hcont : (keepOne groups (keepOne groups init g.id x.name) g.id
            y.name).contains f.name = true :=
          List.elem_iff.mpr ((hmem2 f.name hfn).mpr h)
        rw [hcont]
        simp [h]
    rw [List.filter_congr hpt]
    exact filter_name_eq_of_nodup g.files hnd y hy
  · exact List.elem_iff.mpr
      ((hmem2 x.name (List.mem_map_of_mem (fun f => f.name) hx)).mpr hxyname)

/-- Witness for C7 at a concrete group of two distinctly named members: after
keeping p and then keeping q, exactly q is unmarked and p is marked again. -/
theorem keepOne_switch_keep_witness :
    (([{ name := "p", path := "p", size := 100 },
       { name := "q", path := "d/q", size := 100 }] : List FileMetadata).filter (fun f =>
        !(keepOne
            [⟨"group-100",
              [{ name := "p", path := "p", size := 100 },
               { name := "q", path := "d/q", size := 100 }], false⟩]
            (keepOne
              [⟨"group-100",
                [{ name := "p", path := "p", size := 100 },
                 { name := "q", path := "d/q", size := 100 }], false⟩]
              [] "group-100" "p")
            "group-100" "q").contains f.name))
      = [{ name := "q", path := "d/q", size := 100 }] ∧
    (keepOne
        [⟨"group-100",
          [{ name := "p", path := "p", size := 100 },
           { name := "q", path := "d/q", size := 100 }], false⟩]
        (keepOne
          [⟨"group-100",
            [{ name := "p", path := "p", size := 100 },
             { name := "q", path := "d/q", size := 100 }], false⟩]
          [] "group-100" "p")
        "group-100" "q").contains "p" = true :=
  keepOne_switch_keep
    [⟨"group-100",
      [{ name := "p", path := "p", size := 100 },
       { name := "q", path := "d/q", size := 100 }], false⟩]
    ⟨"group-100",
      [{ name := "p", path := "p", size := 100 },
       { name := "q", path := "d/q", size := 100 }], false⟩
    [] { name := "p", path := "p", size := 100 } { name := "q", path := "d/q", size := 100 }
    (by decide) (by decide) (by decide) (by decide) (by decide)

/-- Counterexample to C7 as stated: the two group members are distinct files
(different paths) but share the bare name x, and the deletion marks are a set
of bare names. Marking the first as keep and then the second as keep leaves
both members unmarked, not exactly one. -/
theorem keepOne_counterexample :
    (([{ name := "x", path := "a/x", size := 100 },
       { name := "x", path := "b/x", size := 100 }] : List FileMetadata).filter (fun f =>
        !(keepOne
            [⟨"group-100",
              [{ name := "x", path := "a/x", size := 100 },
               { name := "x", path := "b/x", size := 100 }], false⟩]
            (keepOne
              [⟨"group-100",
                [{ name := "x", path := "a/x", size := 100 },
                 { name := "x", path := "b/x", size := 100 }], false⟩]
              [] "group-100" "x")
            "group-100" "x").contains f.name)).length = 2 := by
  decide

end FileZen
